import Mathlib

/-!
Verification development for the lucky-imaging module `lisim.py` of the
linguini-sim repository.

Images are modelled as rational-valued pixel grids (`Mat`): the Python code
computes with IEEE doubles, which we idealise as exact rationals, except
that the special values produced by division by zero are modelled
explicitly by the `NpVal` type (NumPy float64 arithmetic does not raise on
division by zero: `0/0` yields NaN with a RuntimeWarning, `x/0` yields a
signed infinity).  Exceptions raised by the Python code (`raise
UserWarning`, `NameError`, `IndexError`) are modelled by the `Except Err`
monad.  External library functions that the repository merely calls
(scipy's spline shift, astropy's Gaussian fitting, pyfftw's FFTs,
`imutils.gaussian_smooth`) are modelled by their documented mathematical
semantics or taken as parameters, as noted at each definition.
-/

namespace LiSim

/-! ### Images -/

/-- A 2D image: height, width, and a pixel function (entries outside the
`h × w` region are irrelevant).  Models a 2D numpy float array. -/
@[ext]
structure Mat where
  h : ℕ
  w : ℕ
  px : ℕ → ℕ → ℚ

/-- A real-valued image, used for the output of the Fourier-amplitude
selection path, whose pixel values are genuinely irrational (magnitudes of
inverse DFTs). -/
@[ext]
structure RMat where
  h : ℕ
  w : ℕ
  px : ℕ → ℕ → ℝ

/-- Coercion of an exact rational image into a real-valued image. -/
noncomputable def Mat.toR (m : Mat) : RMat :=
  ⟨m.h, m.w, fun r c => (m.px r c : ℝ)⟩

/-- The all-zero 0×0 image, used as a default for out-of-range list reads. -/
def mat0 : Mat := ⟨0, 0, fun _ _ => 0⟩

/-- Errors raised by the Python code.  All the configuration errors are
`raise UserWarning` in the source; we keep a tag for which check fired.
`nameError` models Python's NameError/UnboundLocalError (an undefined
variable being read), `indexError` an out-of-bounds `images[0]`. -/
inductive Err where
  | badN
  | badRefShape
  | indexError
  | unsupportedMethod
  | badMode
  | nameError
  deriving DecidableEq

/-! ### NumPy float64 scalars with special values

NumPy float64 division by zero does not raise an exception: `0/0` produces
NaN and `x/0` (`x ≠ 0`) a signed infinity, with only a RuntimeWarning.
`NpVal` models a float64 scalar as an exact rational or one of the special
values, with the IEEE-754 rules for the operations the source uses. -/

inductive NpVal where
  | num (q : ℚ)
  | nan
  | pinf
  | ninf
  deriving DecidableEq

/-- IEEE negation. -/
def NpVal.neg : NpVal → NpVal
  | .num q => .num (-q)
  | .nan => .nan
  | .pinf => .ninf
  | .ninf => .pinf

/-- IEEE subtraction (NaN propagates; ∞ − ∞ = NaN). -/
def NpVal.sub : NpVal → NpVal → NpVal
  | .nan, _ => .nan
  | _, .nan => .nan
  | .num a, .num b => .num (a - b)
  | .num _, .pinf => .ninf
  | .num _, .ninf => .pinf
  | .pinf, .num _ => .pinf
  | .ninf, .num _ => .ninf
  | .pinf, .ninf => .pinf
  | .ninf, .pinf => .ninf
  | .pinf, .pinf => .nan
  | .ninf, .ninf => .nan

/-- IEEE division: `0/0 = NaN`, `x/0 = ±∞`, NaN propagates,
`x/±∞ = 0`, `±∞/±∞ = NaN`. -/
def NpVal.div : NpVal → NpVal → NpVal
  | .nan, _ => .nan
  | _, .nan => .nan
  | .num a, .num b =>
      if b = 0 then (if a = 0 then .nan else if 0 < a then .pinf else .ninf)
      else .num (a / b)
  | .num _, .pinf => .num 0
  | .num _, .ninf => .num 0
  | .pinf, .num b => if b < 0 then .ninf else .pinf
  | .ninf, .num b => if b < 0 then .pinf else .ninf
  | .pinf, .pinf => .nan
  | .pinf, .ninf => .nan
  | .ninf, .pinf => .nan
  | .ninf, .ninf => .nan

/-- `np.round`: round half to even (banker's rounding), as NumPy does. -/
def npRound (q : ℚ) : ℤ :=
  let f := ⌊q⌋
  if q - f < 1/2 then f
  else if 1/2 < q - f then f + 1
  else if f % 2 = 0 then f else f + 1

/-! ### Flattened access, `np.argmax` and Python's `max`

`np.argmax` scans the flattened (row-major) array and returns the index of
the first occurrence of the maximum; `np.unravel_index` turns the flat
index back into `(row, col)`. -/

/-- Value of the flattened (row-major) image at flat index `i`. -/
def matFlat (m : Mat) (i : ℕ) : ℚ := m.px (i / m.w) (i % m.w)

/-- First index attaining the maximum of `v` on `[0, n)` (index `0` when
`n = 0`).  The accumulator is replaced only on a strictly larger value, so
ties keep the earliest index, matching `np.argmax`'s scan order. -/
def argmaxAux (v : ℕ → ℚ) : ℕ → ℕ
  | 0 => 0
  | n + 1 => let b := argmaxAux v n; if v b < v n then n else b

/-- `np.unravel_index(np.argmax(...), shape)` on the image. -/
def npArgmax (m : Mat) : ℕ × ℕ :=
  let i := argmaxAux (matFlat m) (m.h * m.w)
  (i / m.w, i % m.w)

/-- Python's `max(image.flatten())`: a left fold of `max` over the
row-major values (seeded with the first value, so it equals the true
maximum whenever the image is nonempty). -/
def matMax (m : Mat) : ℚ :=
  ((List.range (m.h * m.w)).map (matFlat m)).foldl max (matFlat m 0)

theorem argmaxAux_lt (v : ℕ → ℚ) : ∀ n, 0 < n → argmaxAux v n < n := by
  intro n hn
  induction n with
  | zero => exact absurd hn (lt_irrefl 0)
  | succ k ih =>
    show (let b := argmaxAux v k; if v b < v k then k else b) < k + 1
    by_cases hb : v (argmaxAux v k) < v k
    · simp only [hb, if_true]
      exact Nat.lt_succ_self k
    · simp only [hb, if_false]
      rcases Nat.eq_zero_or_pos k with hk | hk
      · subst hk
        simp [argmaxAux]
      · exact Nat.lt_succ_of_lt (ih hk)

theorem argmaxAux_le (v : ℕ → ℚ) : ∀ n, ∀ i < n, v i ≤ v (argmaxAux v n) := by
  intro n
  induction n with
  | zero => intro i hi; exact absurd hi (Nat.not_lt_zero i)
  | succ k ih =>
    intro i hi
    show v i ≤ v (let b := argmaxAux v k; if v b < v k then k else b)
    by_cases hb : v (argmaxAux v k) < v k
    · simp only [hb, if_true]
      rcases Nat.lt_succ_iff_lt_or_eq.mp hi with h | h
      · exact le_trans (ih i h) (le_of_lt hb)
      · exact le_of_eq (congrArg v h)
    · simp only [hb, if_false]
      rcases Nat.lt_succ_iff_lt_or_eq.mp hi with h | h
      · exact ih i h
      · subst h; exact not_lt.mp hb

theorem argmaxAux_first (v : ℕ → ℚ) :
    ∀ n, ∀ i < argmaxAux v n, v i < v (argmaxAux v n) := by
  intro n
  induction n with
  | zero => intro i hi; simp [argmaxAux] at hi
  | succ k ih =>
    intro i hi
    revert hi
    show i < (let b := argmaxAux v k; if v b < v k then k else b) →
      v i < v (let b := argmaxAux v k; if v b < v k then k else b)
    by_cases hb : v (argmaxAux v k) < v k
    · simp only [hb, if_true]
      intro hik
      exact lt_of_le_of_lt (argmaxAux_le v k i hik) hb
    · simp only [hb, if_false]
      exact ih i

/-- The fold computing Python's `max` agrees with the value at the argmax. -/
theorem foldl_max_eq_argmax (v : ℕ → ℚ) :
    ∀ n, 0 < n →
      ((List.range n).map v).foldl max (v 0) = v (argmaxAux v n) := by
  intro n
  induction n with
  | zero => intro h; exact absurd h (lt_irrefl 0)
  | succ k ih =>
    intro _
    rcases Nat.eq_zero_or_pos k with hk | hk
    · subst hk
      simp [argmaxAux, List.range_succ]
    · rw [List.range_succ, List.map_append, List.foldl_append, ih hk]
      show max (v (argmaxAux v k)) (v k) =
        v (let b := argmaxAux v k; if v b < v k then k else b)
      by_cases hb : v (argmaxAux v k) < v k
      · simp only [hb, if_true]
        exact max_eq_right (le_of_lt hb)
      · simp only [hb, if_false]
        exact max_eq_left (not_lt.mp hb)

theorem matMax_eq_argmax (m : Mat) (hpos : 0 < m.h * m.w) :
    matMax m = matFlat m (argmaxAux (matFlat m) (m.h * m.w)) :=
  foldl_max_eq_argmax (matFlat m) (m.h * m.w) hpos

/-! ### `scipy.ndimage.interpolation.shift`

The source shifts images with scipy's spline-interpolating `shift` (mode
`constant`, `cval 0`).  At exact integer offsets the spline interpolation
reproduces the input values, so an integer shift is an exact translation
with zero fill.  Non-integer or non-finite offsets engage spline
interpolation (or NaN propagation), which is outside the fragment this
development reasons about; those cases are mapped to the zero image and no
theorem below depends on them. -/

/-- Exact translation by an integer offset with zero fill:
`out[r, c] = in[r - dr, c - dc]` when in range, else `0`. -/
def translateZ (m : Mat) (d : ℤ × ℤ) : Mat :=
  ⟨m.h, m.w, fun r c =>
    let r2 : ℤ := (r : ℤ) - d.1
    let c2 : ℤ := (c : ℤ) - d.2
    if 0 ≤ r2 ∧ r2 < (m.h : ℤ) ∧ 0 ≤ c2 ∧ c2 < (m.w : ℤ) then
      m.px r2.toNat c2.toNat
    else 0⟩

/-- `scipy.ndimage.interpolation.shift` for an offset given as a pair of
float64 scalars (see the section comment above). -/
def ndiShiftNp (m : Mat) (d : NpVal × NpVal) : Mat :=
  match d with
  | (.num a, .num b) =>
      if a.den = 1 ∧ b.den = 1 then translateZ m (a.num, b.num)
      else ⟨m.h, m.w, fun _ _ => 0⟩
  | _ => ⟨m.h, m.w, fun _ _ => 0⟩

/-! ### The centroid strategy (`shift_centroid`, `_centroid`) -/

/-- Thresholding step of `shift_centroid` (and of the reference-image
preparation in `lucky_imaging`'s centroid branch): a copy of the image in
which every pixel strictly below `threshold * max(image.flatten())` is set
to zero. -/
def thresholdImg (m : Mat) (t : ℚ) : Mat :=
  ⟨m.h, m.w, fun r c => if m.px r c < t * matMax m then 0 else m.px r c⟩

/-- `_centroid`: intensity-weighted centroid `(M_01/M_00, M_10/M_00)`,
where `X` carries the column index and `Y` the row index
(`X, Y = np.meshgrid(np.arange(width), np.arange(height))` in the source,
with `M_10 = Σ X·I`, `M_01 = Σ Y·I`, `M_00 = Σ I`).  The divisions follow
NumPy float64 semantics (`NpVal.div`): an all-zero image yields
`(NaN, NaN)` without raising. -/
def centroidPy (m : Mat) : NpVal × NpVal :=
  let M10 : ℚ := ∑ r ∈ Finset.range m.h, ∑ c ∈ Finset.range m.w, (c : ℚ) * m.px r c
  let M01 : ℚ := ∑ r ∈ Finset.range m.h, ∑ c ∈ Finset.range m.w, (r : ℚ) * m.px r c
  let M00 : ℚ := ∑ r ∈ Finset.range m.h, ∑ c ∈ Finset.range m.w, m.px r c
  (NpVal.div (.num M01) (.num M00), NpVal.div (.num M10) (.num M00))

/-- `shift_centroid`: threshold, take the centroid, shift the image by
`img_ref_peak_idx - centroid` and report the negated shift.  The function
is total: no step of it can raise (NumPy division by zero only warns). -/
def shiftCentroid (image : Mat) (imgRefPeakIdx : NpVal × NpVal)
    (centroidThreshold : ℚ) : Mat × (NpVal × NpVal) :=
  let ctr := centroidPy (thresholdImg image centroidThreshold)
  let rel := (NpVal.sub imgRefPeakIdx.1 ctr.1, NpVal.sub imgRefPeakIdx.2 ctr.2)
  (ndiShiftNp image rel, (NpVal.neg rel.1, NpVal.neg rel.2))

/-! ### The peak-pixel strategy (`shift_pp`) -/

/-- `shift_pp`.  When `bid_area` is truthy the source evaluates the
undefined name `images` (`imutils.rotateAndCrop(image_in_array=images, ...)`
— there is no variable `images` in `shift_pp`'s scope), so Python raises
NameError before anything else happens; we model that branch as
`.error .nameError`.  Otherwise: find the (first, row-major) peak of the
image, shift by `img_ref_peak_idx - peak`, and return the shifted image,
the negated shift and the peak pixel value `max(sub_image.flatten())`.
The `fsr` parameter is accepted and ignored, as in the source. -/
def shiftPP (image : Mat) (imgRefPeakIdx : ℕ × ℕ) (fsr : ℚ)
    (bidArea : Option (ℕ × ℕ)) : Except Err (Mat × (ℤ × ℤ) × ℚ) :=
  match bidArea with
  | some _ => .error .nameError
  | none =>
      let pk := npArgmax image
      let rel : ℤ × ℤ := ((imgRefPeakIdx.1 : ℤ) - pk.1, (imgRefPeakIdx.2 : ℤ) - pk.2)
      .ok (translateZ image rel, (-rel.1, -rel.2), matMax image)

/-! ### Cropping, padding, edge ramp (`edge_ramp`) -/

/-- Modelled from the spec: `imutils.centre_crop` (the repository's
`imutils` module is not among the source files).  Per the spec's
"padding/cropping consistency", it crops the central `sz.1 × sz.2` region,
the top-left corner of the crop sitting at half the size difference. -/
def centreCrop (m : Mat) (sz : ℕ × ℕ) : Mat :=
  ⟨sz.1, sz.2, fun r c => m.px (r + (m.h - sz.1) / 2) (c + (m.w - sz.2) / 2)⟩

/-- `np.pad(·, b, mode='linear_ramp')` along the row axis: `b` rows are
added on each side, ramping linearly from the edge value down to the
default end value `0` at the outermost row. -/
def padRampRows (m : Mat) (b : ℕ) : Mat :=
  ⟨m.h + 2 * b, m.w, fun r c =>
    if r < b then (r : ℚ) / b * m.px 0 c
    else if r < b + m.h then m.px (r - b) c
    else ((m.h + 2 * b - 1 - r : ℕ) : ℚ) / b * m.px (m.h - 1) c⟩

/-- `np.pad(·, b, mode='linear_ramp')` along the column axis. -/
def padRampCols (m : Mat) (b : ℕ) : Mat :=
  ⟨m.h, m.w + 2 * b, fun r c =>
    if c < b then (c : ℚ) / b * m.px r 0
    else if c < b + m.w then m.px r (c - b)
    else ((m.w + 2 * b - 1 - c : ℕ) : ℚ) / b * m.px r (m.w - 1)⟩

/-- `np.pad` with a scalar width pads axis 0, then axis 1. -/
def padRamp2 (m : Mat) (b : ℕ) : Mat := padRampCols (padRampRows m b) b

/-- `edge_ramp` on a single 2D image: centre-crop by `buff` on every side,
then pad back `buff` pixels with a linear ramp to zero. -/
def edgeRamp (m : Mat) (buff : ℕ) : Mat :=
  padRamp2 (centreCrop m (m.h - 2 * buff, m.w - 2 * buff)) buff

/-- `edge_ramp` on a 3D stack: the crop and the pad act on the two spatial
axes only (`np.pad(im, ((0,0), (b,b), (b,b)), mode='linear_ramp')`). -/
def edgeRampStack (l : List Mat) (buff : ℕ) : List Mat :=
  l.map (fun m => edgeRamp m buff)

/-! ### Median combination

Modelled from the spec: `obssim.median_combine` (the repository's
median-combine helper is not among the source files) combines a stack
per-pixel by the median; `np.median` of an even number of values is the
mean of the two central values of the sorted list. -/

/-- Median of a list of rationals, NumPy style. -/
def medianQ (l : List ℚ) : ℚ :=
  let s := l.insertionSort (· ≤ ·)
  if l.length % 2 = 1 then s.getD (l.length / 2) 0
  else (s.getD (l.length / 2 - 1) 0 + s.getD (l.length / 2) 0) / 2

/-- The median of a nonempty list all of whose entries are `v` is `v`. -/
theorem medianQ_const (l : List ℚ) (v : ℚ) (hne : l ≠ [])
    (hall : ∀ x ∈ l, x = v) : medianQ l = v := by
  have hperm : List.Perm (l.insertionSort (· ≤ ·)) l := List.perm_insertionSort _ l
  have hs : ∀ x ∈ l.insertionSort (· ≤ ·), x = v := fun x hx => hall x (hperm.mem_iff.mp hx)
  have hlen : (l.insertionSort (· ≤ ·)).length = l.length := hperm.length_eq
  have hlpos : 0 < l.length := List.length_pos.mpr hne
  have hget : ∀ i, i < l.length → (l.insertionSort (· ≤ ·)).getD i 0 = v := by
    intro i hi
    rw [List.getD_eq_getElem?_getD]
    have hi2 : i < (l.insertionSort (· ≤ ·)).length := by omega
    rw [List.getElem?_eq_getElem hi2]
    exact hs _ (List.getElem_mem hi2)
  unfold medianQ
  by_cases hodd : l.length % 2 = 1
  · simp only [hodd, if_true]
    exact hget _ (by omega)
  · simp only [hodd, if_false]
    rw [hget _ (by omega), hget _ (by omega)]
    ring

/-! ### The alignment-error analyzer (`alignment_err`) -/

/-- The state of `alignment_err`'s loop: the two input index arrays and the
`errs_as` output array.  Carrying the inputs through the loop makes the
frame condition (they are never written) a provable statement. -/
structure AlignData where
  inA : ℕ → ℕ → ℝ
  outA : ℕ → ℕ → ℝ
  errs : ℕ → ℕ → ℝ

/-- One iteration of `alignment_err`'s loop: writes the three entries of
row `k` of `errs_as` and touches nothing else. -/
noncomputable def alignmentErrStep (ps : ℝ) (s : AlignData) (k : ℕ) : AlignData :=
  { s with errs := fun k2 j =>
      if k2 = k then
        if j = 0 then (s.inA k 0 - s.outA k 0) * ps
        else if j = 1 then (s.inA k 1 - s.outA k 1) * ps
        else if j = 2 then
          Real.sqrt (((s.inA k 0 - s.outA k 0) * ps) ^ 2 +
                     ((s.inA k 1 - s.outA k 1) * ps) ^ 2)
        else s.errs k2 j
      else s.errs k2 j }

/-- `alignment_err`: `errs_as` starts as zeros, the loop fills row `k` with
the plate-scale-converted signed errors and their Euclidean magnitude, and
`errs_px = errs_as / plate_scale` is computed from the result.  Returns the
final loop state (whose `errs` is the returned `errs_as`) together with
`errs_px`. -/
noncomputable def alignmentErr (N : ℕ) (inA outA : ℕ → ℕ → ℝ) (ps : ℝ) :
    AlignData × (ℕ → ℕ → ℝ) :=
  let final := (List.range N).foldl (alignmentErrStep ps) ⟨inA, outA, fun _ _ => 0⟩
  (final, fun k j => final.errs k j / ps)

theorem alignmentErr_loop (ps : ℝ) (inA outA : ℕ → ℕ → ℝ) : ∀ n : ℕ,
    ((List.range n).foldl (alignmentErrStep ps) ⟨inA, outA, fun _ _ => 0⟩).inA = inA ∧
    ((List.range n).foldl (alignmentErrStep ps) ⟨inA, outA, fun _ _ => 0⟩).outA = outA ∧
    (∀ k, n ≤ k → ∀ j,
      ((List.range n).foldl (alignmentErrStep ps) ⟨inA, outA, fun _ _ => 0⟩).errs k j = 0) ∧
    (∀ k, k < n → ∀ j,
      ((List.range n).foldl (alignmentErrStep ps) ⟨inA, outA, fun _ _ => 0⟩).errs k j =
        (if j = 0 then (inA k 0 - outA k 0) * ps
         else if j = 1 then (inA k 1 - outA k 1) * ps
         else if j = 2 then
           Real.sqrt (((inA k 0 - outA k 0) * ps) ^ 2 +
                      ((inA k 1 - outA k 1) * ps) ^ 2)
         else 0)) := by
  intro n
  induction n with
  | zero =>
    refine ⟨rfl, rfl, fun k _ j => rfl, fun k hk j => absurd hk (Nat.not_lt_zero k)⟩
  | succ n ih =>
    obtain ⟨hin, hout, hzero, hrow⟩ := ih
    rw [List.range_succ, List.foldl_append]
    set s := (List.range n).foldl (alignmentErrStep ps) ⟨inA, outA, fun _ _ => 0⟩ with hs
    simp only [List.foldl_cons, List.foldl_nil]
    refine ⟨hin, hout, ?_, ?_⟩
    · intro k hk j
      show (alignmentErrStep ps s n).errs k j = 0
      unfold alignmentErrStep
      have hkn : k ≠ n := by omega
      simp only [hkn, if_false]
      exact hzero k (by omega) j
    · intro k hk j
      show (alignmentErrStep ps s n).errs k j =
        (if j = 0 then (inA k 0 - outA k 0) * ps
         else if j = 1 then (inA k 1 - outA k 1) * ps
         else if j = 2 then
           Real.sqrt (((inA k 0 - outA k 0) * ps) ^ 2 +
                      ((inA k 1 - outA k 1) * ps) ^ 2)
         else 0)
      unfold alignmentErrStep
      rcases Nat.lt_succ_iff_lt_or_eq.mp hk with hlt | heq
      · have hkn : k ≠ n := by omega
        simp only [hkn, if_false]
        exact hrow k hlt j
      · subst heq
        simp only [if_pos rfl, hin, hout]
        by_cases h0 : j = 0
        · simp [h0]
        by_cases h1 : j = 1
        · simp [h0, h1]
        by_cases h2 : j = 2
        · simp [h0, h1, h2]
        · simp only [h0, h1, h2, if_false]
          exact hzero k (le_refl k) j

/-- C9: `alignment_err` returns an `N × 3` array whose first two columns
are the per-frame signed row and column errors (true − recovered) times
the plate scale, whose third column is the Euclidean magnitude of those
two, with `errs_px` obtained by dividing the result by the same plate
scale; the two input arrays come back unmodified. -/
theorem alignmentErr_spec (N : ℕ) (inA outA : ℕ → ℕ → ℝ) (ps : ℝ)
    (k : ℕ) (hk : k < N) :
    (alignmentErr N inA outA ps).1.inA = inA ∧
    (alignmentErr N inA outA ps).1.outA = outA ∧
    (alignmentErr N inA outA ps).1.errs k 0 = (inA k 0 - outA k 0) * ps ∧
    (alignmentErr N inA outA ps).1.errs k 1 = (inA k 1 - outA k 1) * ps ∧
    (alignmentErr N inA outA ps).1.errs k 2 =
      Real.sqrt ((alignmentErr N inA outA ps).1.errs k 0 ^ 2 +
                 (alignmentErr N inA outA ps).1.errs k 1 ^ 2) ∧
    (∀ j, (alignmentErr N inA outA ps).2 k j =
      (alignmentErr N inA outA ps).1.errs k j / ps) := by
  obtain ⟨hin, hout, _, hrow⟩ := alignmentErr_loop ps inA outA N
  refine ⟨hin, hout, ?_, ?_, ?_, fun j => rfl⟩
  · simpa using hrow k hk 0
  · simpa using hrow k hk 1
  · rw [show (alignmentErr N inA outA ps).1.errs k 2 =
        Real.sqrt (((inA k 0 - outA k 0) * ps) ^ 2 + ((inA k 1 - outA k 1) * ps) ^ 2) by
          simpa using hrow k hk 2]
    rw [show (alignmentErr N inA outA ps).1.errs k 0 = (inA k 0 - outA k 0) * ps by
          simpa using hrow k hk 0]
    rw [show (alignmentErr N inA outA ps).1.errs k 1 = (inA k 1 - outA k 1) * ps by
          simpa using hrow k hk 1]

/-- Witness for C9 at a concrete input. -/
theorem alignmentErr_spec_witness :
    (0 : ℕ) < 1 ∧
    (alignmentErr 1 (fun _ _ => 0) (fun _ _ => 0) 1).1.inA = (fun _ _ => (0 : ℝ)) :=
  ⟨Nat.zero_lt_one,
    (alignmentErr_spec 1 (fun _ _ => 0) (fun _ _ => 0) 1 0 Nat.zero_lt_one).1⟩

/-! ### C3: the degenerate-centroid behaviour -/

theorem npSub_nan_right : ∀ x : NpVal, NpVal.sub x .nan = .nan := by
  intro x; cases x <;> rfl

/-- A 2×2 image all of whose pixels are −1.  Thresholding it at
`0.25 * max = -0.25` zeroes every pixel (each `-1 < -0.25`), so the zeroth
moment of the thresholded image is 0. -/
def matNeg2 : Mat := ⟨2, 2, fun _ _ => -1⟩

theorem matNeg2_max : matMax matNeg2 = -1 := by
  norm_num [matMax, matFlat, matNeg2, List.range_succ]

theorem matNeg2_threshold_zero :
    ∀ r < matNeg2.h, ∀ c < matNeg2.w, (thresholdImg matNeg2 (1/4)).px r c = 0 := by
  intro r _ c _
  show (if matNeg2.px r c < 1/4 * matMax matNeg2 then 0 else matNeg2.px r c) = 0
  rw [matNeg2_max]
  norm_num [matNeg2]

/-- Core computation shared by C3's theorem and counterexample. -/
theorem shiftCentroidNanAux (image : Mat) (refIdx : NpVal × NpVal) (t : ℚ)
    (hz : ∀ r < image.h, ∀ c < image.w, (thresholdImg image t).px r c = 0) :
    centroidPy (thresholdImg image t) = (NpVal.nan, NpVal.nan) ∧
    (shiftCentroid image refIdx t).2 = (NpVal.nan, NpVal.nan) := by
  have hT : (thresholdImg image t).h = image.h ∧ (thresholdImg image t).w = image.w :=
    ⟨rfl, rfl⟩
  have hM00 : (∑ r ∈ Finset.range (thresholdImg image t).h,
      ∑ c ∈ Finset.range (thresholdImg image t).w, (thresholdImg image t).px r c) = 0 := by
    refine Finset.sum_eq_zero fun r hr => Finset.sum_eq_zero fun c hc => ?_
    exact hz r (Finset.mem_range.mp hr) c (Finset.mem_range.mp hc)
  have hM01 : (∑ r ∈ Finset.range (thresholdImg image t).h,
      ∑ c ∈ Finset.range (thresholdImg image t).w,
        (r : ℚ) * (thresholdImg image t).px r c) = 0 := by
    refine Finset.sum_eq_zero fun r hr => Finset.sum_eq_zero fun c hc => ?_
    rw [hz r (Finset.mem_range.mp hr) c (Finset.mem_range.mp hc), mul_zero]
  have hM10 : (∑ r ∈ Finset.range (thresholdImg image t).h,
      ∑ c ∈ Finset.range (thresholdImg image t).w,
        (c : ℚ) * (thresholdImg image t).px r c) = 0 := by
    refine Finset.sum_eq_zero fun r hr => Finset.sum_eq_zero fun c hc => ?_
    rw [hz r (Finset.mem_range.mp hr) c (Finset.mem_range.mp hc), mul_zero]
  have hctr : centroidPy (thresholdImg image t) = (NpVal.nan, NpVal.nan) := by
    unfold centroidPy
    rw [hM00, hM01, hM10]
    simp [NpVal.div]
  refine ⟨hctr, ?_⟩
  show (NpVal.neg (NpVal.sub refIdx.1 (centroidPy (thresholdImg image t)).1),
        NpVal.neg (NpVal.sub refIdx.2 (centroidPy (thresholdImg image t)).2)) =
       (NpVal.nan, NpVal.nan)
  rw [hctr]
  rw [npSub_nan_right refIdx.1, npSub_nan_right refIdx.2]
  rfl

/-- C3 (amended): whenever thresholding zeroes every pixel (so the zeroth
moment is 0), `_centroid` silently evaluates `0/0` to NaN for both
coordinates and a standalone `shift_centroid` call returns normally,
propagating the NaN shift vector `(NaN, NaN)` to the caller instead of
raising any error. -/
theorem shiftCentroid_nan_no_error (image : Mat) (refIdx : NpVal × NpVal) (t : ℚ)
    (hz : ∀ r < image.h, ∀ c < image.w, (thresholdImg image t).px r c = 0) :
    centroidPy (thresholdImg image t) = (NpVal.nan, NpVal.nan) ∧
    (shiftCentroid image refIdx t).2 = (NpVal.nan, NpVal.nan) :=
  shiftCentroidNanAux image refIdx t hz

/-- C3 counterexample: on a concrete input whose thresholding zeroes every
pixel, `shift_centroid` does NOT fail with a division-by-zero error —
NumPy float64 division by zero only emits a RuntimeWarning — and instead
returns normally, carrying the silent NaN shift vector that the claim says
cannot occur. -/
theorem shiftCentroid_silent_nan :
    (shiftCentroid matNeg2 (NpVal.num 0, NpVal.num 0) (1/4)).2 =
      (NpVal.nan, NpVal.nan) :=
  (shiftCentroidNanAux matNeg2 (NpVal.num 0, NpVal.num 0) (1/4)
    matNeg2_threshold_zero).2

/-- Witness for C3's amended theorem at a concrete degenerate input. -/
theorem shiftCentroid_nan_no_error_witness :
    (∀ r < matNeg2.h, ∀ c < matNeg2.w, (thresholdImg matNeg2 (1/4)).px r c = 0) ∧
    (shiftCentroid matNeg2 (NpVal.num 2, NpVal.num 3) (1/4)).2 =
      (NpVal.nan, NpVal.nan) :=
  ⟨matNeg2_threshold_zero,
    (shiftCentroid_nan_no_error matNeg2 (NpVal.num 2, NpVal.num 3) (1/4)
      matNeg2_threshold_zero).2⟩

/-! ### C5: the peak-pixel single-frame strategy -/

/-- C5: `shift_pp` with no bid area finds the first row-major peak of the
frame, shifts by `ref_peak − frame_peak`, and reports the negated shift
`frame_peak − ref_peak` together with the frame's peak value; but
whenever a (truthy) bid area is supplied, the code reads the undefined
name `images` and raises NameError instead of cropping the frame, so the
bid-area half of the claim fails on the code. -/
theorem shiftPP_spec (image : Mat) (refIdx : ℕ × ℕ) (fsr : ℚ) (ba : ℕ × ℕ)
    (hpos : 0 < image.h * image.w) :
    shiftPP image refIdx fsr (some ba) = .error .nameError ∧
    shiftPP image refIdx fsr none =
      .ok (translateZ image
             ((refIdx.1 : ℤ) - (npArgmax image).1, (refIdx.2 : ℤ) - (npArgmax image).2),
           (((npArgmax image).1 : ℤ) - refIdx.1, ((npArgmax image).2 : ℤ) - refIdx.2),
           matMax image) ∧
    image.px (npArgmax image).1 (npArgmax image).2 = matMax image ∧
    (npArgmax image).1 * image.w + (npArgmax image).2 < image.h * image.w ∧
    (∀ r c, r < image.h → c < image.w → image.px r c ≤ matMax image) ∧
    (∀ r c, r < image.h → c < image.w →
      r * image.w + c < (npArgmax image).1 * image.w + (npArgmax image).2 →
      image.px r c < matMax image) := by
  have hw : 0 < image.w := by
    rcases Nat.eq_zero_or_pos image.w with h | h
    · rw [h, Nat.mul_zero] at hpos; exact absurd hpos (lt_irrefl 0)
    · exact h
  set i := argmaxAux (matFlat image) (image.h * image.w) with hi
  have hflat : (npArgmax image).1 * image.w + (npArgmax image).2 = i := by
    show i / image.w * image.w + i % image.w = i
    rw [Nat.mul_comm]
    exact Nat.div_add_mod i image.w
  have hmax : matMax image = matFlat image i := matMax_eq_argmax image hpos
  have hpk : image.px (npArgmax image).1 (npArgmax image).2 = matFlat image i := rfl
  have hidx : ∀ r c, r < image.h → c < image.w → r * image.w + c < image.h * image.w := by
    intro r c hr hc
    calc r * image.w + c < r * image.w + image.w := Nat.add_lt_add_left hc _
    _ = (r + 1) * image.w := by ring
    _ ≤ image.h * image.w := Nat.mul_le_mul_right image.w hr
  have hval : ∀ r c, c < image.w → matFlat image (r * image.w + c) = image.px r c := by
    intro r c hc
    unfold matFlat
    have h1 : (r * image.w + c) / image.w = r := by
      rw [Nat.mul_comm r image.w, Nat.mul_add_div hw, Nat.div_eq_of_lt hc, Nat.add_zero]
    have h2 : (r * image.w + c) % image.w = c := by
      rw [Nat.add_comm, Nat.add_mul_mod_self_right, Nat.mod_eq_of_lt hc]
    rw [h1, h2]
  refine ⟨rfl, ?_, ?_, ?_, ?_, ?_⟩
  · show Except.ok
        (translateZ image ((refIdx.1 : ℤ) - (npArgmax image).1, (refIdx.2 : ℤ) - (npArgmax image).2),
         (-((refIdx.1 : ℤ) - (npArgmax image).1), -((refIdx.2 : ℤ) - (npArgmax image).2)),
         matMax image) = _
    rw [neg_sub, neg_sub]
  · rw [hpk, hmax]
  · rw [hflat]
    exact hi ▸ argmaxAux_lt (matFlat image) (image.h * image.w) hpos
  · intro r c hr hc
    rw [hmax, ← hval r c hc]
    exact argmaxAux_le (matFlat image) (image.h * image.w) _ (hidx r c hr hc)
  · intro r c _ hc hlt
    rw [hmax, ← hval r c hc]
    rw [hflat] at hlt
    exact argmaxAux_first (matFlat image) (image.h * image.w) _ hlt

/-- A concrete 1×2 image for C5's witness. -/
def matC5 : Mat := ⟨1, 2, fun _ c => (c : ℚ)⟩

/-- Witness for C5 at a concrete input. -/
theorem shiftPP_spec_witness :
    0 < matC5.h * matC5.w ∧
    shiftPP matC5 (0, 0) 1 (some (1, 1)) = .error .nameError :=
  ⟨by decide, (shiftPP_spec matC5 (0, 0) 1 (1, 1) (by decide)).1⟩

/-! ### C10: `edge_ramp` preserves shapes -/

/-- C10: for a 2D image (and each frame of a 3D stack) with `2·buff`
smaller than each spatial dimension, `edge_ramp` returns an array of
exactly the input's shape: the centre crop removes `buff` pixels per side
and the linear-ramp pad puts them back. -/
theorem edgeRamp_preserves_shape (m : Mat) (stack : List Mat) (b : ℕ)
    (hh : 2 * b < m.h) (hw : 2 * b < m.w) :
    ((edgeRamp m b).h = m.h ∧ (edgeRamp m b).w = m.w) ∧
    ((edgeRampStack stack b).length = stack.length ∧
      ∀ i < stack.length,
        2 * b < (stack.getD i mat0).h → 2 * b < (stack.getD i mat0).w →
        ((edgeRampStack stack b).getD i mat0).h = (stack.getD i mat0).h ∧
        ((edgeRampStack stack b).getD i mat0).w = (stack.getD i mat0).w) := by
  have hdim : ∀ m2 : Mat, 2 * b < m2.h → 2 * b < m2.w →
      (edgeRamp m2 b).h = m2.h ∧ (edgeRamp m2 b).w = m2.w := by
    intro m2 h2 w2
    constructor
    · show m2.h - 2 * b + 2 * b = m2.h
      omega
    · show m2.w - 2 * b + 2 * b = m2.w
      omega
  refine ⟨hdim m hh hw, List.length_map stack _, ?_⟩
  intro i hi h1 h2
  have hget : (edgeRampStack stack b).getD i mat0 = edgeRamp (stack.getD i mat0) b := by
    unfold edgeRampStack
    rw [List.getD_eq_getElem?_getD, List.getElem?_map, List.getD_eq_getElem?_getD,
      List.getElem?_eq_getElem hi]
    rfl
  rw [hget]
  exact hdim _ h1 h2

/-- A concrete 3×3 image for C10's witness. -/
def matC10 : Mat := ⟨3, 3, fun _ _ => 1⟩

/-- Witness for C10 at a concrete input. -/
theorem edgeRamp_preserves_shape_witness :
    (2 * 1 < matC10.h ∧ 2 * 1 < matC10.w) ∧
    ((edgeRamp matC10 1).h = matC10.h ∧ (edgeRamp matC10 1).w = matC10.w) :=
  ⟨by decide, (edgeRamp_preserves_shape matC10 [] 1 (by decide) (by decide)).1⟩

/-! ### `np.argsort` and top-k index selection

`np.argsort(vals)` returns the indices `[0, N)` ordered so the values are
ascending; `[-k:]` keeps the last `k` of them (the indices of the `k`
largest values) and `[::-1][:k]` the first `k` after reversal (the same
thing from a descending ranking).  NumPy's default quicksort is not stable
on ties; insertion sort realises one valid sorting permutation, and the
properties proved below (a permutation of the index range whose selected
part dominates the unselected part) hold for every such permutation. -/

/-- Comparison of indices through a key function. -/
def keyLE {α : Type} [LinearOrder α] (key : ℕ → α) (i j : ℕ) : Prop :=
  key i ≤ key j

instance keyLE.dec {α : Type} [LinearOrder α] (key : ℕ → α) :
    DecidableRel (keyLE key) :=
  fun i j => inferInstanceAs (Decidable (key i ≤ key j))

/-- `np.argsort` over the index range `[0, N)`. -/
def argsort {α : Type} [LinearOrder α] (N : ℕ) (key : ℕ → α) : List ℕ :=
  (List.range N).insertionSort (keyLE key)

theorem argsort_perm {α : Type} [LinearOrder α] (N : ℕ) (key : ℕ → α) :
    List.Perm (argsort N key) (List.range N) :=
  List.perm_insertionSort _ _

theorem argsort_sorted {α : Type} [LinearOrder α] (N : ℕ) (key : ℕ → α) :
    List.Sorted (keyLE key) (argsort N key) := by
  haveI : IsTotal ℕ (keyLE key) := ⟨fun a b => le_total (key a) (key b)⟩
  haveI : IsTrans ℕ (keyLE key) := ⟨fun a b c hab hbc => le_trans hab hbc⟩
  exact List.sorted_insertionSort _ _

theorem argsort_length {α : Type} [LinearOrder α] (N : ℕ) (key : ℕ → α) :
    (argsort N key).length = N := by
  rw [(argsort_perm N key).length_eq, List.length_range]

theorem argsort_nodup {α : Type} [LinearOrder α] (N : ℕ) (key : ℕ → α) :
    (argsort N key).Nodup :=
  (argsort_perm N key).nodup_iff.mpr (List.nodup_range N)

theorem argsort_mem {α : Type} [LinearOrder α] (N : ℕ) (key : ℕ → α) :
    ∀ i ∈ argsort N key, i < N := by
  intro i hi
  exact List.mem_range.mp ((argsort_perm N key).mem_iff.mp hi)

/-- `np.argsort(vals)[-k:]`: the indices of the `k` largest values
(Python's negative slice keeps the whole list when `k ≥ N`). -/
def topkIdx {α : Type} [LinearOrder α] (N k : ℕ) (key : ℕ → α) : List ℕ :=
  (argsort N key).drop (N - k)

theorem topkIdx_length {α : Type} [LinearOrder α] (N k : ℕ) (key : ℕ → α)
    (hk : k ≤ N) : (topkIdx N k key).length = k := by
  unfold topkIdx
  rw [List.length_drop, argsort_length]
  omega

theorem topkIdx_nodup {α : Type} [LinearOrder α] (N k : ℕ) (key : ℕ → α) :
    (topkIdx N k key).Nodup :=
  (argsort_nodup N key).sublist (List.drop_sublist _ _)

theorem topkIdx_mem {α : Type} [LinearOrder α] (N k : ℕ) (key : ℕ → α) :
    ∀ i ∈ topkIdx N k key, i < N :=
  fun i hi => argsort_mem N key i (List.mem_of_mem_drop hi)

/-- The selected indices dominate the unselected ones: any index of the
range that is not selected has a key at most that of any selected index. -/
theorem topkIdx_dominates {α : Type} [LinearOrder α] (N k : ℕ) (key : ℕ → α) :
    ∀ j < N, j ∉ topkIdx N k key → ∀ i ∈ topkIdx N k key, key j ≤ key i := by
  intro j hj hjn i hi
  have hsplit : (argsort N key).take (N - k) ++ (argsort N key).drop (N - k) =
      argsort N key := List.take_append_drop _ _
  have hpair : List.Pairwise (keyLE key) (argsort N key) := argsort_sorted N key
  rw [← hsplit] at hpair
  have hcross := (List.pairwise_append.mp hpair).2.2
  have hjl : j ∈ argsort N key := (argsort_perm N key).mem_iff.mpr (List.mem_range.mpr hj)
  rw [← hsplit] at hjl
  rcases List.mem_append.mp hjl with hjt | hjd
  · exact hcross j hjt i hi
  · exact absurd hjd hjn

/-- `np.argsort(vals)[::-1]`: indices ranked by descending value. -/
def argsortDesc {α : Type} [LinearOrder α] (N : ℕ) (key : ℕ → α) : List ℕ :=
  (argsort N key).reverse

/-- `np.argsort(vals)[::-1][:k]`: the top `k` indices of a descending
ranking. -/
def topkIdxDesc {α : Type} [LinearOrder α] (N k : ℕ) (key : ℕ → α) : List ℕ :=
  (argsortDesc N key).take k

theorem topkIdxDesc_eq_reverse {α : Type} [LinearOrder α] (N k : ℕ)
    (key : ℕ → α) :
    topkIdxDesc N k key = (topkIdx N k key).reverse := by
  unfold topkIdxDesc argsortDesc topkIdx
  rw [List.take_reverse, argsort_length]

theorem topkIdxDesc_length {α : Type} [LinearOrder α] (N k : ℕ) (key : ℕ → α)
    (hk : k ≤ N) : (topkIdxDesc N k key).length = k := by
  rw [topkIdxDesc_eq_reverse N k key, List.length_reverse, topkIdx_length N k key hk]

theorem topkIdxDesc_nodup {α : Type} [LinearOrder α] (N k : ℕ) (key : ℕ → α) :
    (topkIdxDesc N k key).Nodup := by
  rw [topkIdxDesc_eq_reverse N k key]
  exact List.nodup_reverse.mpr (topkIdx_nodup N k key)

theorem topkIdxDesc_mem {α : Type} [LinearOrder α] (N k : ℕ) (key : ℕ → α) :
    ∀ i ∈ topkIdxDesc N k key, i < N := by
  rw [topkIdxDesc_eq_reverse N k key]
  intro i hi
  exact topkIdx_mem N k key i (List.mem_reverse.mp hi)

theorem topkIdxDesc_dominates {α : Type} [LinearOrder α] (N k : ℕ) (key : ℕ → α) :
    ∀ j < N, j ∉ topkIdxDesc N k key → ∀ i ∈ topkIdxDesc N k key, key j ≤ key i := by
  rw [topkIdxDesc_eq_reverse N k key]
  intro j hj hjn i hi
  exact topkIdx_dominates N k key j hj (fun h => hjn (List.mem_reverse.mpr h)) i
    (List.mem_reverse.mp hi)

/-! ### Input validation (`_li_error_check`)

The float64 cast at the top of `_li_error_check` is the identity in this
model (pixels are already exact rationals).  A stack is represented as a
`List Mat`, so only the 3D case of the dimension check is representable;
every claim below supplies a 3D stack.  `images[0]` on an empty stack is
Python's IndexError. -/

def liErrorCheck (images : List Mat) (imageRef : Option Mat) (Nopt : Option ℕ) :
    Except Err (List Mat × Mat × ℕ) :=
  if Nopt.getD 0 ≠ 0 ∧ images.length < Nopt.getD 0 then .error .badN
  else
    match images with
    | [] => .error .indexError
    | hd :: tl =>
      match imageRef with
      | none =>
          let n := if Nopt.getD 0 = 0 then (hd :: tl).length - 1 else Nopt.getD 0
          .ok (tl, hd, n)
      | some r =>
          if r.h = hd.h ∧ r.w = hd.w then
            let n := if Nopt.getD 0 = 0 then (hd :: tl).length else Nopt.getD 0
            .ok (hd :: tl, r, n)
          else .error .badRefShape

/-- With no reference image and no `N` (the claim's inputs), the first
frame (a copy, which is the identity here) becomes the reference, the tail
is what gets aligned, and `N` becomes the stack length minus one. -/
theorem liErrorCheck_none (hd : Mat) (tl : List Mat) :
    liErrorCheck (hd :: tl) none none = .ok (tl, hd, tl.length) := by
  unfold liErrorCheck
  simp

/-- With a reference image of matching shape and no `N`, nothing is
dropped and `N` is the stack length. -/
theorem liErrorCheck_some (hd : Mat) (tl : List Mat) (r : Mat)
    (hsh : r.h = hd.h ∧ r.w = hd.w) :
    liErrorCheck (hd :: tl) (some r) none = .ok (hd :: tl, r, (hd :: tl).length) := by
  unfold liErrorCheck
  simp [hsh]

/-- With the default `N = None`, the `N` that comes back is always the
length of the frame list that comes back. -/
theorem liErrorCheck_default_length (images : List Mat) (imageRef : Option Mat)
    (imgs : List Mat) (r : Mat) (n : ℕ)
    (h : liErrorCheck images imageRef none = .ok (imgs, r, n)) :
    n = imgs.length := by
  match images with
  | [] =>
    unfold liErrorCheck at h
    simp at h
  | hd :: tl =>
    match imageRef with
    | none =>
        rw [liErrorCheck_none hd tl] at h
        injection h with h
        simp only [Prod.mk.injEq] at h
        obtain ⟨h1, _, h3⟩ := h
        rw [← h3, ← h1]
    | some rr =>
        by_cases hsh : rr.h = hd.h ∧ rr.w = hd.w
        · rw [liErrorCheck_some hd tl rr hsh] at h
          injection h with h
          simp only [Prod.mk.injEq] at h
          obtain ⟨h1, _, h3⟩ := h
          rw [← h3, ← h1]
        · unfold liErrorCheck at h
          simp [hsh] at h

/-! ### The serial and parallel execution modes -/

/-- Result of one per-frame shift call: the shifted image, the reported
shift vector, and the peak pixel value for `shift_pp` (the 2-tuple-valued
strategies carry `none`). -/
abbrev PRes := Mat × (NpVal × NpVal) × Option ℚ

/-- The serial mode: `for k in range(N): ... shift_fun(image=images[k])`,
reading `images[k]` (IndexError past the end) and filling the result
arrays in index order. -/
def serialRun (f : Mat → Except Err PRes) (imgs : List Mat) :
    ℕ → Except Err (List PRes)
  | 0 => .ok []
  | n + 1 => do
      let rs ← serialRun f imgs n
      match imgs[n]? with
      | some im => do
          let r ← f im
          .ok (rs ++ [r])
      | none => .error .indexError

/-- The parallel mode: `pool.map(shift_fun, images, 1)` applies the same
per-frame function to every image; `map` joins and returns the results in
input order (the `.tolist()` round-trip is the identity on pixel values),
and the first raised exception propagates. -/
def parallelRun (f : Mat → Except Err PRes) : List Mat → Except Err (List PRes)
  | [] => .ok []
  | im :: rest => do
      let r ← f im
      let rs ← parallelRun f rest
      .ok (r :: rs)

theorem parallelRun_length (f : Mat → Except Err PRes) :
    ∀ (l : List Mat) (rs : List PRes), parallelRun f l = .ok rs → rs.length = l.length := by
  intro l
  induction l with
  | nil =>
    intro rs h
    unfold parallelRun at h
    injection h with h
    rw [← h]
    rfl
  | cons hd tl ih =>
    intro rs h
    unfold parallelRun at h
    match hf : f hd with
    | .error e => rw [hf] at h; exact absurd h (by simp [bind, Except.bind])
    | .ok r =>
      rw [hf] at h
      match ht : parallelRun f tl with
      | .error e => rw [ht] at h; exact absurd h (by simp [bind, Except.bind])
      | .ok rst =>
        rw [ht] at h
        simp only [bind, Except.bind, Except.ok.injEq] at h
        rw [← h]
        simp [ih rst ht]

theorem parallelRun_append (f : Mat → Except Err PRes) (l1 l2 : List Mat) :
    parallelRun f (l1 ++ l2) = (do
      let a ← parallelRun f l1
      let b ← parallelRun f l2
      Except.ok (a ++ b)) := by
  induction l1 with
  | nil =>
    show parallelRun f l2 = _
    match h2 : parallelRun f l2 with
    | .error e => rfl
    | .ok b => rfl
  | cons hd tl ih =>
    show (do
        let r ← f hd
        let rs ← parallelRun f (tl ++ l2)
        Except.ok (r :: rs)) = _
    rw [ih]
    simp only [parallelRun]
    cases hf : f hd
    · rfl
    · cases ht : parallelRun f tl
      · rfl
      · cases h2 : parallelRun f l2
        · rfl
        · rfl

theorem serialRun_take (f : Mat → Except Err PRes) (imgs : List Mat) :
    ∀ n, n ≤ imgs.length → serialRun f imgs n = parallelRun f (imgs.take n) := by
  intro n
  induction n with
  | zero => intro _; rfl
  | succ n ih =>
    intro h
    have hn : n < imgs.length := h
    rw [serialRun, ih (Nat.le_of_lt hn), List.take_succ, List.getElem?_eq_getElem hn,
      Option.toList_some, parallelRun_append]
    cases hmt : parallelRun f (imgs.take n)
    · rfl
    · simp only [parallelRun]
      cases hf : f imgs[n]
      · rfl
      · rfl

/-- The two execution modes agree whenever the loop bound is the length of
the frame list (which `_li_error_check` guarantees for the default
`N = None`). -/
theorem serialRun_eq_parallelRun (f : Mat → Except Err PRes) (imgs : List Mat) :
    serialRun f imgs imgs.length = parallelRun f imgs := by
  rw [serialRun_take f imgs imgs.length (le_refl _), List.take_length]

theorem serialRun_length (f : Mat → Except Err PRes) (imgs : List Mat) (n : ℕ)
    (hn : n ≤ imgs.length) (rs : List PRes)
    (h : serialRun f imgs n = .ok rs) : rs.length = n := by
  rw [serialRun_take f imgs n hn] at h
  rw [parallelRun_length f _ rs h, List.length_take]
  omega

/-! ### Stack combination helpers -/

/-- `np.sum(stack, axis=0)` at one pixel. -/
def stackSum (l : List Mat) (r c : ℕ) : ℚ :=
  (l.map (fun m => m.px r c)).sum

/-- `(image_ref + np.sum(stack, 0)) / (n + 1)`, the `'average'` stacking
rule. -/
def avgStack (ref : Mat) (l : List Mat) (n : ℚ) : Mat :=
  ⟨ref.h, ref.w, fun r c => (ref.px r c + stackSum l r c) / (n + 1)⟩

/-- `obssim.median_combine(np.concatenate((ref_as_stack, stack)))`: the
per-pixel median of the reference and the stack (median combine is
spec-modelled, see `medianQ`). -/
def medStack (ref : Mat) (l : List Mat) : Mat :=
  ⟨ref.h, ref.w, fun r c => medianQ (ref.px r c :: l.map (fun m => m.px r c))⟩

/-! ### The Fourier-amplitude-selection combination (source lines 420–486)

The transforms are `pyfftw.interfaces.numpy_fft.fft2 / ifft2 / fftshift`
(an external library), modelled by the standard 2D DFT and the index roll
of `np.fft.fftshift`.  `imutils.gaussian_smooth` (repository code not
under `src/`, engaged only when `sigma_kernel ≠ 0`) is a parameter
`gsmooth`. -/

/-- The 2D DFT of an `h × w` rational image (NumPy's `fft2` convention). -/
noncomputable def dft2 (h w : ℕ) (f : ℕ → ℕ → ℚ) : ℕ → ℕ → ℂ :=
  fun u v => ∑ x ∈ Finset.range h, ∑ y ∈ Finset.range w,
    (f x y : ℂ) * Complex.exp (-(2 * Real.pi * Complex.I) *
      (((u * x : ℕ) : ℂ) / (h : ℂ) + ((v * y : ℕ) : ℂ) / (w : ℂ)))

/-- The 2D inverse DFT (NumPy's `ifft2` convention, `1/(h·w)` in front). -/
noncomputable def idft2 (h w : ℕ) (F : ℕ → ℕ → ℂ) : ℕ → ℕ → ℂ :=
  fun x y => (1 / (h * w : ℂ)) * ∑ u ∈ Finset.range h, ∑ v ∈ Finset.range w,
    F u v * Complex.exp ((2 * Real.pi * Complex.I) *
      (((u * x : ℕ) : ℂ) / (h : ℂ) + ((v * y : ℕ) : ℂ) / (w : ℂ)))

/-- `np.fft.fftshift` on a 2D array (a roll by `h/2` and `w/2`):
`out[r, c] = in[(r - h/2) mod h, (c - w/2) mod w]`. -/
def fftshift2 (h w : ℕ) (F : ℕ → ℕ → ℂ) : ℕ → ℕ → ℂ :=
  fun r c => F ((r + h - h / 2) % h) ((c + w - w / 2) % w)

/-- `images_fft = fftshift(fft2(edge_ramp(images_shifted, buff)), axes=(1,2))`,
frame by frame. -/
noncomputable def fasF (h w buff : ℕ) (imagesShifted : List Mat) :
    ℕ → ℕ → ℕ → ℂ :=
  fun i => fftshift2 h w (dft2 h w (edgeRamp (imagesShifted.getD i mat0) buff).px)

/-- `N_frames_to_keep = max(1, int(np.round(fsr * N)))`. -/
def fasK (fsr : ℚ) (n : ℕ) : ℕ := (max 1 (npRound (fsr * n))).toNat

/-- `cutoff_freq_px = int(np.round(cutoff_freq_frac * min(h, w)))`. -/
def fasCutoff (cutoffFreqFrac : ℚ) (h w : ℕ) : ℤ :=
  npRound (cutoffFreqFrac * ((min h w : ℕ) : ℚ))

/-- The low-frequency disc `uv_map == 1`: `np.sqrt(U² + V²) < cutoff` at
the grid point `U = c - w/2`, `V = r - h/2` (exact rationals; comparing
squares eliminates the square root, and a non-positive cutoff matches no
point since the root is non-negative). -/
def inDisc (h w : ℕ) (cutoff : ℤ) (r c : ℕ) : Prop :=
  0 < cutoff ∧ ((c : ℚ) - w / 2) ^ 2 + ((r : ℚ) - h / 2) ^ 2 < (cutoff : ℚ) ^ 2

instance inDisc.dec (h w : ℕ) (cutoff : ℤ) (r c : ℕ) :
    Decidable (inDisc h w cutoff r c) :=
  inferInstanceAs (Decidable (_ ∧ _))

/-- `images_fft_amp = np.abs(images_fft)`, Gaussian-smoothed per frame when
`sigma_kernel != 0`. -/
noncomputable def fasAmp (gsmooth : (ℕ → ℕ → ℝ) → ℚ → ℕ → ℕ → ℝ)
    (sigmaKernel : ℚ) (h w buff : ℕ) (imagesShifted : List Mat) :
    ℕ → ℕ → ℕ → ℝ :=
  fun i =>
    if sigmaKernel ≠ 0 then
      gsmooth (fun r c => Complex.abs (fasF h w buff imagesShifted i r c)) sigmaKernel
    else fun r c => Complex.abs (fasF h w buff imagesShifted i r c)

/-- The accumulated `fft_sum` at one frequency coordinate.  Outside the
disc (and only when `use_vals_outside_cutoff_freq`) the frames kept are
the `k` with the largest peak pixel value of the ramped frame
(`np.argsort(max_pixel_vals)[-k:]`); inside the disc they are the `k`
whose (possibly smoothed) Fourier amplitude at this exact coordinate is
largest (`np.argsort(images_fft_amp[:,u,v])[-k:]`); coordinates a loop
never touches contribute the zeros `vals_to_keep` was created with. -/
noncomputable def fasSum (gsmooth : (ℕ → ℕ → ℝ) → ℚ → ℕ → ℕ → ℝ)
    (h w buff : ℕ) (imagesShifted : List Mat) (n : ℕ)
    (fsr cutoffFreqFrac sigmaKernel : ℚ) (useOutside : Bool) : ℕ → ℕ → ℂ :=
  fun r c =>
    (if useOutside ∧ ¬ inDisc h w (fasCutoff cutoffFreqFrac h w) r c then
       ((topkIdx imagesShifted.length (fasK fsr n)
           (fun i => matMax (edgeRamp (imagesShifted.getD i mat0) buff))).map
         (fun i => fasF h w buff imagesShifted i r c)).sum
     else 0) +
    (if inDisc h w (fasCutoff cutoffFreqFrac h w) r c then
       ((topkIdx imagesShifted.length (fasK fsr n)
           (fun i => fasAmp gsmooth sigmaKernel h w buff imagesShifted i r c)).map
         (fun i => fasF h w buff imagesShifted i r c)).sum
     else 0)

/-- The FAS combination: edge-ramp the aligned frames, transform, select
and accumulate (`fasSum`), divide by `N_frames_to_keep`, shift back,
inverse-transform and take the magnitude
(`np.abs(ifft2(fftshift(fft_sum / N_frames_to_keep)))`). -/
noncomputable def fasCombine (gsmooth : (ℕ → ℕ → ℝ) → ℚ → ℕ → ℕ → ℝ)
    (h w : ℕ) (imagesShifted : List Mat) (n : ℕ) (fsr : ℚ) (buff : ℕ)
    (cutoffFreqFrac sigmaKernel : ℚ) (useOutside : Bool) : RMat :=
  ⟨h, w, fun x y =>
    Complex.abs (idft2 h w (fftshift2 h w
      (fun u v =>
        fasSum gsmooth h w buff imagesShifted n fsr cutoffFreqFrac sigmaKernel
          useOutside u v / (fasK fsr n : ℂ))) x y)⟩

/-! ### The orchestrator (`lucky_imaging`)

The cross-correlation and Gaussian-fit per-frame estimators wrap external
library calls (scipy's `fftconvolve`, astropy's `LevMarLSQFitter`); they
enter the model as the opaque parameters `xcorrFun` and `gaussFun`
(taking the reference and the frame; `buff_xcorr` and `sub_pixel_shift`
are folded into them, as `functools.partial` does in the source).  Every
theorem below holds for all values of these parameters. -/

/-- Python's `str.lower()` (applied to `li_method`): lowercase every
character (written on the character list, which is the same function as
`String.toLower` but reduces inside the kernel). -/
def strLower (s : String) : String := ⟨s.data.map Char.toLower⟩

/-- Result of the method dispatch: either an early return (the blind-stack
branch returns from inside the dispatch) or a per-frame shift function to
run over the stack. -/
inductive Dispatch where
  | early (out : RMat × List (NpVal × NpVal))
  | run (f : Mat → Except Err PRes)

/-- `np.zeros((N, 2))` as a shift list. -/
def zeroShifts (n : ℕ) : List (NpVal × NpVal) :=
  List.replicate n (NpVal.num 0, NpVal.num 0)

/-- The `li_method` dispatch of `lucky_imaging` (source lines 318–366), on
the already-lowercased method string. -/
noncomputable def methodDispatch
    (xcorrFun gaussFun : Mat → Mat → Mat × (NpVal × NpVal))
    (m : String) (ref : Mat) (imgs : List Mat) (n : ℕ)
    (fsr centroidThreshold : ℚ) (bidArea : Option (ℕ × ℕ))
    (stackingMethod : String) : Except Err Dispatch :=
  if m = "cross-correlation" then
    .ok (.run (fun im => .ok ((xcorrFun ref im).1, (xcorrFun ref im).2, none)))
  else if m = "gaussian fit" then
    .ok (.run (fun im => .ok ((gaussFun ref im).1, (gaussFun ref im).2, none)))
  else if m = "peak pixel" then
    let subRef := match bidArea with
      | some ba => centreCrop ref ba
      | none => ref
    .ok (.run (fun im =>
      (shiftPP im (npArgmax subRef) fsr bidArea).map
        (fun res => (res.1,
          (NpVal.num (res.2.1.1 : ℚ), NpVal.num (res.2.1.2 : ℚ)), some res.2.2))))
  else if m = "centroid" then
    .ok (.run (fun im =>
      .ok ((shiftCentroid im (centroidPy (thresholdImg ref centroidThreshold))
              centroidThreshold).1,
           (shiftCentroid im (centroidPy (thresholdImg ref centroidThreshold))
              centroidThreshold).2, none)))
  else if m = "blind stack" then
    if stackingMethod = "median combine" then
      .ok (.early ((medStack ref imgs).toR, zeroShifts n))
    else if stackingMethod = "average" then
      .ok (.early ((avgStack ref imgs (n : ℚ)).toR, zeroShifts n))
    else .error .nameError
  else if m = "fourier amplitude selection" ∨ m = "fas" then
    .ok (.run (fun im => .ok ((xcorrFun ref im).1, (xcorrFun ref im).2, none)))
  else .error .unsupportedMethod

/-- The stacking stage of `lucky_imaging` after the per-frame loop (source
lines 402–497): peak-pixel selection stacking when `fsr < 1`, the FAS
combination, or the plain median/average combination (an unrecognized
stacking rule leaves `image_stacked` unbound, an UnboundLocalError at the
final `return`). -/
noncomputable def postStack (gsmooth : (ℕ → ℕ → ℝ) → ℚ → ℕ → ℕ → ℝ)
    (m stackingMethod : String) (ref : Mat) (n : ℕ) (fsr : ℚ)
    (buffFas : ℕ) (cutoffFreqFrac sigmaKernel : ℚ) (useOutside : Bool)
    (results : List PRes) : Except Err (RMat × List (NpVal × NpVal)) :=
  let imagesShifted := results.map (fun r => r.1)
  let relShifts := results.map (fun r => r.2.1)
  if m = "peak pixel" ∧ fsr < 1 then
    let retained := (topkIdxDesc results.length (Int.ceil (fsr * n)).toNat
        (fun i => ((results.getD i (mat0, (NpVal.num 0, NpVal.num 0), none)).2.2).getD 0)).map
      (fun i => imagesShifted.getD i mat0)
    if stackingMethod = "median combine" then
      .ok ((medStack ref retained).toR, relShifts)
    else if stackingMethod = "average" then
      .ok ((avgStack ref retained ((Int.ceil (fsr * n)).toNat : ℚ)).toR, relShifts)
    else .error .nameError
  else if m = "fourier amplitude selection" ∨ m = "fas" then
    .ok (fasCombine gsmooth ref.h ref.w imagesShifted n fsr buffFas
          cutoffFreqFrac sigmaKernel useOutside, relShifts)
  else
    if stackingMethod = "median combine" then
      .ok ((medStack ref imagesShifted).toR, relShifts)
    else if stackingMethod = "average" then
      .ok ((avgStack ref imagesShifted (n : ℚ)).toR, relShifts)
    else .error .nameError

/-- `lucky_imaging` (source lines 291–502): validate inputs, dispatch on
the lowercased method name (an invalid name aborts before any frame is
touched), run the per-frame estimation serially or in parallel, and
combine. -/
noncomputable def luckyImaging
    (xcorrFun gaussFun : Mat → Mat → Mat × (NpVal × NpVal))
    (gsmooth : (ℕ → ℕ → ℝ) → ℚ → ℕ → ℕ → ℝ)
    (liMethod mode : String) (images : List Mat) (imageRef : Option Mat)
    (fsr : ℚ) (bidArea : Option (ℕ × ℕ)) (Nopt : Option ℕ)
    (centroidThreshold : ℚ) (buffFas : ℕ) (cutoffFreqFrac sigmaKernel : ℚ)
    (useOutside : Bool) (stackingMethod : String) :
    Except Err (RMat × List (NpVal × NpVal)) := do
  let (imgs, ref, n) ← liErrorCheck images imageRef Nopt
  let d ← methodDispatch xcorrFun gaussFun (strLower liMethod) ref imgs n fsr
    centroidThreshold bidArea stackingMethod
  match d with
  | .early out => .ok out
  | .run f => do
      let results ←
        (if mode = "parallel" then parallelRun f imgs
         else if mode = "serial" then serialRun f imgs n
         else .error .badMode)
      postStack gsmooth (strLower liMethod) stackingMethod ref n fsr buffFas
        cutoffFreqFrac sigmaKernel useOutside results

/-! ### C2: the serial and parallel modes agree -/

/-- C2: `lucky_imaging` with `mode='serial'` and with `mode='parallel'`
returns the same stacked image and the same shift array on the same inputs
(with the default `N = None`): the per-frame computations are the same
function applied to the same frames, the serial loop visits them in order,
`pool.map` joins the same results in input order, and everything after the
per-frame phase is common code.  This holds for every method string (for
an invalid one both modes fail identically before the mode is consulted)
and for all values of the opaque external estimators. -/
theorem luckyImaging_serial_eq_parallel
    (xcorrFun gaussFun : Mat → Mat → Mat × (NpVal × NpVal))
    (gsmooth : (ℕ → ℕ → ℝ) → ℚ → ℕ → ℕ → ℝ)
    (liMethod : String) (images : List Mat) (imageRef : Option Mat)
    (fsr : ℚ) (bidArea : Option (ℕ × ℕ)) (centroidThreshold : ℚ)
    (buffFas : ℕ) (cutoffFreqFrac sigmaKernel : ℚ) (useOutside : Bool)
    (stackingMethod : String) :
    luckyImaging xcorrFun gaussFun gsmooth liMethod "serial" images imageRef
      fsr bidArea none centroidThreshold buffFas cutoffFreqFrac sigmaKernel
      useOutside stackingMethod =
    luckyImaging xcorrFun gaussFun gsmooth liMethod "parallel" images imageRef
      fsr bidArea none centroidThreshold buffFas cutoffFreqFrac sigmaKernel
      useOutside stackingMethod := by
  unfold luckyImaging
  cases hec : liErrorCheck images imageRef none
  case error e => rfl
  case ok t =>
    obtain ⟨imgs, ref, n⟩ := t
    have hn : n = imgs.length :=
      liErrorCheck_default_length images imageRef imgs ref n hec
    simp only [bind, Except.bind]
    cases hd : methodDispatch xcorrFun gaussFun (strLower liMethod) ref imgs n
        fsr centroidThreshold bidArea stackingMethod
    case error e => rfl
    case ok d =>
      cases d
      case early out => rfl
      case run f =>
        have hrun : serialRun f imgs n = parallelRun f imgs := by
          rw [hn]
          exact serialRun_eq_parallelRun f imgs
        simp [hrun]

/-! ### C6: blind stack -/

theorem methodDispatch_blind (xf gf : Mat → Mat → Mat × (NpVal × NpVal))
    (ref : Mat) (imgs : List Mat) (n : ℕ) (fsr ct : ℚ)
    (bid : Option (ℕ × ℕ)) :
    (methodDispatch xf gf "blind stack" ref imgs n fsr ct bid "average" =
      .ok (.early ((avgStack ref imgs (n : ℚ)).toR, zeroShifts n))) ∧
    (methodDispatch xf gf "blind stack" ref imgs n fsr ct bid "median combine" =
      .ok (.early ((medStack ref imgs).toR, zeroShifts n))) := by
  constructor <;> (unfold methodDispatch; simp)

theorem sum_map_const_of_all_eq (l : List Mat) (g : Mat → ℚ) (v : ℚ)
    (hall : ∀ m ∈ l, g m = v) : (l.map g).sum = l.length * v := by
  induction l with
  | nil => simp
  | cons hd tl ih =>
    have hhd : g hd = v := hall hd (List.mem_cons_self hd tl)
    have htl : ∀ m ∈ tl, g m = v := fun m hm => hall m (List.mem_cons_of_mem hd hm)
    simp only [List.map_cons, List.sum_cons, List.length_cons, ih htl, hhd]
    push_cast
    ring

/-- C6: blind-stack performs no alignment.  For the `'average'` rule it
returns `(reference + Σ frames) / (N + 1)` with an all-zero `N × 2` shift
list; and when the `N` frames are identical copies of the reference, the
blind-stacked output equals the reference exactly under both the average
and the median-combine rules. -/
theorem blindStack_spec
    (xcorrFun gaussFun : Mat → Mat → Mat × (NpVal × NpVal))
    (gsmooth : (ℕ → ℕ → ℝ) → ℚ → ℕ → ℕ → ℝ)
    (mode : String) (hd : Mat) (tl : List Mat) (ref : Mat)
    (fsr : ℚ) (bidArea : Option (ℕ × ℕ)) (centroidThreshold : ℚ)
    (buffFas : ℕ) (cutoffFreqFrac sigmaKernel : ℚ) (useOutside : Bool)
    (hsh : ref.h = hd.h ∧ ref.w = hd.w) :
    (luckyImaging xcorrFun gaussFun gsmooth "blind stack" mode (hd :: tl)
        (some ref) fsr bidArea none centroidThreshold buffFas cutoffFreqFrac
        sigmaKernel useOutside "average" =
      .ok ((⟨ref.h, ref.w, fun r c =>
            (ref.px r c + stackSum (hd :: tl) r c) / (((hd :: tl).length : ℚ) + 1)⟩ :
          Mat).toR,
        zeroShifts (hd :: tl).length)) ∧
    ((∀ m ∈ hd :: tl, m = ref) →
      (luckyImaging xcorrFun gaussFun gsmooth "blind stack" mode (hd :: tl)
          (some ref) fsr bidArea none centroidThreshold buffFas cutoffFreqFrac
          sigmaKernel useOutside "average" =
        .ok (ref.toR, zeroShifts (hd :: tl).length)) ∧
      (luckyImaging xcorrFun gaussFun gsmooth "blind stack" mode (hd :: tl)
          (some ref) fsr bidArea none centroidThreshold buffFas cutoffFreqFrac
          sigmaKernel useOutside "median combine" =
        .ok (ref.toR, zeroShifts (hd :: tl).length))) := by
  have havg : luckyImaging xcorrFun gaussFun gsmooth "blind stack" mode (hd :: tl)
      (some ref) fsr bidArea none centroidThreshold buffFas cutoffFreqFrac
      sigmaKernel useOutside "average" =
      .ok ((avgStack ref (hd :: tl) (((hd :: tl).length : ℕ) : ℚ)).toR,
        zeroShifts (hd :: tl).length) := by
    unfold luckyImaging
    rw [liErrorCheck_some hd tl ref hsh]
    simp only [bind, Except.bind]
    rw [show strLower "blind stack" = "blind stack" from rfl,
      (methodDispatch_blind xcorrFun gaussFun ref (hd :: tl) (hd :: tl).length
        fsr centroidThreshold bidArea).1]
  have hmed : luckyImaging xcorrFun gaussFun gsmooth "blind stack" mode (hd :: tl)
      (some ref) fsr bidArea none centroidThreshold buffFas cutoffFreqFrac
      sigmaKernel useOutside "median combine" =
      .ok ((medStack ref (hd :: tl)).toR, zeroShifts (hd :: tl).length) := by
    unfold luckyImaging
    rw [liErrorCheck_some hd tl ref hsh]
    simp only [bind, Except.bind]
    rw [show strLower "blind stack" = "blind stack" from rfl,
      (methodDispatch_blind xcorrFun gaussFun ref (hd :: tl) (hd :: tl).length
        fsr centroidThreshold bidArea).2]
  refine ⟨havg, fun hall => ⟨?_, ?_⟩⟩
  · rw [havg]
    have : avgStack ref (hd :: tl) (((hd :: tl).length : ℕ) : ℚ) = ref := by
      refine Mat.ext rfl rfl ?_
      funext r c
      show (ref.px r c + stackSum (hd :: tl) r c) / (((hd :: tl).length : ℚ) + 1) =
        ref.px r c
      have hsum : stackSum (hd :: tl) r c = ((hd :: tl).length : ℚ) * ref.px r c :=
        sum_map_const_of_all_eq (hd :: tl) (fun m => m.px r c) (ref.px r c)
          (fun m hm => by rw [hall m hm])
      rw [hsum]
      have hne : (((hd :: tl).length : ℚ) + 1) ≠ 0 := by
        have : (0 : ℚ) < ((hd :: tl).length : ℚ) + 1 := by positivity
        exact ne_of_gt this
      field_simp
      ring
    rw [this]
  · rw [hmed]
    have : medStack ref (hd :: tl) = ref := by
      refine Mat.ext rfl rfl ?_
      funext r c
      show medianQ (ref.px r c :: (hd :: tl).map (fun m => m.px r c)) = ref.px r c
      apply medianQ_const _ _ (List.cons_ne_nil _ _)
      intro x hx
      rcases List.mem_cons.mp hx with h | h
      · exact h
      · obtain ⟨m, hm, hmx⟩ := List.mem_map.mp h
        rw [← hmx, hall m hm]
    rw [this]

/-- Witness for C6 at a concrete input. -/
theorem blindStack_spec_witness :
    (matC10.h = matC10.h ∧ matC10.w = matC10.w) ∧
    luckyImaging (fun _ im => (im, (NpVal.num 0, NpVal.num 0)))
        (fun _ im => (im, (NpVal.num 0, NpVal.num 0))) (fun a _ => a)
        "blind stack" "serial" [matC10] (some matC10) 1 none none (1/4) 0 1 0
        true "average" =
      .ok (matC10.toR, zeroShifts 1) := by
  have h := (blindStack_spec (fun _ im => (im, (NpVal.num 0, NpVal.num 0)))
    (fun _ im => (im, (NpVal.num 0, NpVal.num 0))) (fun a _ => a) "serial"
    matC10 [] matC10 1 none (1/4) 0 1 0 true ⟨rfl, rfl⟩).2
    (fun m hm => by
      rcases List.mem_cons.mp hm with h | h
      · exact h
      · exact absurd h (List.not_mem_nil m))
  exact ⟨⟨rfl, rfl⟩, h.1⟩

/-! ### C7 and C8: reference defaulting and the method dispatch -/

/-- Whatever the method, every `.ok` branch of the stacking stage returns
the per-frame shift vectors of all the results, in order. -/
theorem postStack_shifts (gsmooth : (ℕ → ℕ → ℝ) → ℚ → ℕ → ℕ → ℝ)
    (m stacking : String) (ref : Mat) (n : ℕ) (fsr : ℚ) (buffFas : ℕ)
    (cf sk : ℚ) (uo : Bool) (results : List PRes) (out : RMat)
    (shifts : List (NpVal × NpVal))
    (h : postStack gsmooth m stacking ref n fsr buffFas cf sk uo results =
      .ok (out, shifts)) :
    shifts = results.map (fun r => r.2.1) := by
  have hx : ∀ (A : RMat) (B : List (NpVal × NpVal)),
      (Except.ok (A, B) : Except Err (RMat × List (NpVal × NpVal))) =
        .ok (out, shifts) → shifts = B := by
    intro A B hh
    injection hh with hh
    exact ((Prod.ext_iff.mp hh).2).symm
  unfold postStack at h
  split at h
  · split at h
    · exact hx _ _ h
    · split at h
      · exact hx _ _ h
      · exact absurd h (by simp)
  · split at h
    · exact hx _ _ h
    · split at h
      · exact hx _ _ h
      · split at h
        · exact hx _ _ h
        · exact absurd h (by simp)

/-- The only early return of the dispatch is the blind-stack branch, whose
shift list is `np.zeros((N, 2))`. -/
theorem methodDispatch_early_shifts
    (xf gf : Mat → Mat → Mat × (NpVal × NpVal)) (m : String) (ref : Mat)
    (imgs : List Mat) (n : ℕ) (fsr ct : ℚ) (bid : Option (ℕ × ℕ))
    (stacking : String) (out : RMat × List (NpVal × NpVal))
    (h : methodDispatch xf gf m ref imgs n fsr ct bid stacking =
      .ok (.early out)) :
    out.2 = zeroShifts n := by
  unfold methodDispatch at h
  split at h
  · exact absurd h (by simp)
  · split at h
    · exact absurd h (by simp)
    · split at h
      · exact absurd h (by simp)
      · split at h
        · exact absurd h (by simp)
        · split at h
          · split at h
            · injection h with h
              injection h with h
              rw [← h]
            · split at h
              · injection h with h
                injection h with h
                rw [← h]
              · exact absurd h (by simp)
          · split at h
            · exact absurd h (by simp)
            · exact absurd h (by simp)

/-- C7: with a 3D stack and no reference image (and the default
`N = None`), `_li_error_check` hands back the tail of the stack, a copy of
its first frame as the reference, and `N = stack length − 1`; and whenever
the serial `lucky_imaging` call on such inputs returns, its shift array
has exactly `stack length − 1` rows (the tail frames are the only ones
aligned and stacked). -/
theorem refDefault_spec
    (xcorrFun gaussFun : Mat → Mat → Mat × (NpVal × NpVal))
    (gsmooth : (ℕ → ℕ → ℝ) → ℚ → ℕ → ℕ → ℝ)
    (liMethod : String) (hd : Mat) (tl : List Mat)
    (fsr : ℚ) (bidArea : Option (ℕ × ℕ)) (centroidThreshold : ℚ)
    (buffFas : ℕ) (cf sk : ℚ) (uo : Bool) (stacking : String) :
    liErrorCheck (hd :: tl) none none = .ok (tl, hd, (hd :: tl).length - 1) ∧
    ∀ out shifts,
      luckyImaging xcorrFun gaussFun gsmooth liMethod "serial" (hd :: tl) none
        fsr bidArea none centroidThreshold buffFas cf sk uo stacking =
        .ok (out, shifts) →
      shifts.length = (hd :: tl).length - 1 := by
  have hlen : (hd :: tl).length - 1 = tl.length := by simp
  constructor
  · rw [liErrorCheck_none, hlen]
  · intro out shifts h
    rw [hlen]
    unfold luckyImaging at h
    rw [liErrorCheck_none hd tl] at h
    simp only [bind, Except.bind] at h
    cases hdisp : methodDispatch xcorrFun gaussFun (strLower liMethod) hd tl
        tl.length fsr centroidThreshold bidArea stacking
    case error e => rw [hdisp] at h; exact Except.noConfusion h
    case ok d =>
      rw [hdisp] at h
      cases d
      case early out2 =>
        have h2 : out2.2 = zeroShifts tl.length :=
          methodDispatch_early_shifts xcorrFun gaussFun (strLower liMethod) hd
            tl tl.length fsr centroidThreshold bidArea stacking out2 hdisp
        injection h with h
        have hsh : shifts = out2.2 := ((Prod.ext_iff.mp h).2).symm
        rw [hsh, h2]
        exact List.length_replicate tl.length _
      case run f =>
        replace h : Except.bind (serialRun f tl tl.length)
            (fun results => postStack gsmooth (strLower liMethod) stacking hd
              tl.length fsr buffFas cf sk uo results) = .ok (out, shifts) := h
        cases hres : serialRun f tl tl.length
        case error e => rw [hres] at h; exact Except.noConfusion h
        case ok rs =>
          rw [hres] at h
          replace h : postStack gsmooth (strLower liMethod) stacking hd
              tl.length fsr buffFas cf sk uo rs = .ok (out, shifts) := h
          rw [postStack_shifts _ _ _ _ _ _ _ _ _ _ _ _ _ h, List.length_map]
          exact serialRun_length f tl tl.length (le_refl _) rs hres

/-- The closed set of method names `lucky_imaging` accepts (after
lowercasing). -/
def supportedMethods : List String :=
  ["cross-correlation", "gaussian fit", "peak pixel", "centroid",
   "blind stack", "fourier amplitude selection", "fas"]

/-- C8: a method name outside the supported set makes `lucky_imaging`
fail with the configuration error of the dispatch's final `else` before
any frame is processed: on every well-formed input (whatever the frames'
pixel contents, the mode string, or the other options) the result is the
same `unsupportedMethod` error, produced before the per-frame loop or any
stacking code runs. -/
theorem invalidMethod_spec
    (xcorrFun gaussFun : Mat → Mat → Mat × (NpVal × NpVal))
    (gsmooth : (ℕ → ℕ → ℝ) → ℚ → ℕ → ℕ → ℝ)
    (liMethod mode : String) (images : List Mat) (imageRef : Option Mat)
    (fsr : ℚ) (bidArea : Option (ℕ × ℕ)) (Nopt : Option ℕ)
    (centroidThreshold : ℚ) (buffFas : ℕ) (cf sk : ℚ) (uo : Bool)
    (stacking : String)
    (hok : ∃ t, liErrorCheck images imageRef Nopt = .ok t)
    (hm : strLower liMethod ∉ supportedMethods) :
    luckyImaging xcorrFun gaussFun gsmooth liMethod mode images imageRef fsr
      bidArea Nopt centroidThreshold buffFas cf sk uo stacking =
      .error .unsupportedMethod := by
  obtain ⟨⟨imgs, ref, n⟩, hec⟩ := hok
  have hne : ∀ s ∈ supportedMethods, strLower liMethod ≠ s :=
    fun s hs h => hm (h ▸ hs)
  have hfas : ¬ (strLower liMethod = "fourier amplitude selection" ∨
      strLower liMethod = "fas") := by
    rintro (h | h)
    · exact hne _ (by decide) h
    · exact hne _ (by decide) h
  have hdisp : methodDispatch xcorrFun gaussFun (strLower liMethod) ref imgs n
      fsr centroidThreshold bidArea stacking = .error .unsupportedMethod := by
    unfold methodDispatch
    rw [if_neg (hne _ (by decide)), if_neg (hne _ (by decide)),
      if_neg (hne _ (by decide)), if_neg (hne _ (by decide)),
      if_neg (hne _ (by decide)), if_neg hfas]
  unfold luckyImaging
  rw [hec]
  simp only [bind, Except.bind]
  rw [hdisp]

/-- Witness for C8 at a concrete input. -/
theorem invalidMethod_spec_witness :
    (∃ t, liErrorCheck [matC10, matC10] none none = .ok t) ∧
    luckyImaging (fun _ im => (im, (NpVal.num 0, NpVal.num 0)))
        (fun _ im => (im, (NpVal.num 0, NpVal.num 0))) (fun a _ => a)
        "frobnicate" "serial" [matC10, matC10] none 1 none none (1/4) 0 1 0
        true "average" =
      .error .unsupportedMethod :=
  ⟨⟨([matC10], matC10, 1), rfl⟩,
    invalidMethod_spec (fun _ im => (im, (NpVal.num 0, NpVal.num 0)))
      (fun _ im => (im, (NpVal.num 0, NpVal.num 0))) (fun a _ => a)
      "frobnicate" "serial" [matC10, matC10] none 1 none none (1/4) 0 1 0
      true "average" ⟨([matC10], matC10, 1), rfl⟩ (by decide)⟩

/-! ### C4: peak-pixel frame selection with `fsr < 1` -/

/-- The per-frame result of the peak-pixel estimator with no bid area, as
it appears in the pipeline: the frame shifted by `ref_peak − frame_peak`,
the negated shift as the reported vector, and the frame's peak pixel
value.  Definitionally equal to what the dispatch's wrapped `shift_pp`
returns. -/
def ppFrame (refIdx : ℕ × ℕ) (im : Mat) : PRes :=
  (translateZ im ((refIdx.1 : ℤ) - (npArgmax im).1, (refIdx.2 : ℤ) - (npArgmax im).2),
   (NpVal.num ((-((refIdx.1 : ℤ) - (npArgmax im).1) : ℤ) : ℚ),
    NpVal.num ((-((refIdx.2 : ℤ) - (npArgmax im).2) : ℤ) : ℚ)),
   some (matMax im))

theorem parallelRun_ok (f : Mat → Except Err PRes) (g : Mat → PRes)
    (hf : ∀ im, f im = .ok (g im)) :
    ∀ l : List Mat, parallelRun f l = .ok (l.map g) := by
  intro l
  induction l with
  | nil => rfl
  | cons hd tl ih =>
    show (do
        let r ← f hd
        let rs ← parallelRun f tl
        Except.ok (r :: rs)) = _
    rw [hf hd, ih]
    rfl

theorem getD_map {α β : Type} (l : List α) (f : α → β) (d : β) (d0 : α)
    (i : ℕ) (hi : i < l.length) :
    (l.map f).getD i d = f (l.getD i d0) := by
  rw [List.getD_eq_getElem?_getD, List.getElem?_map, List.getElem?_eq_getElem hi,
    List.getD_eq_getElem?_getD, List.getElem?_eq_getElem hi]
  rfl

/-- C4: with method `'peak pixel'`, a selection fraction `fsr < 1` (serial
mode, no bid area, reference supplied), the frames are ranked descending
by peak pixel value and exactly the top `ceil(fsr · N)` shifted frames are
kept: there is a duplicate-free index list `kept` of that length, every
frame outside it has a peak no larger than any inside it, the stacked
image combines exactly the retained shifted frames with the reference (by
average or median combine), and the returned shift array still has one
(negated) shift vector for every one of the `N` input frames. -/
theorem peakPixel_selection_spec
    (xcorrFun gaussFun : Mat → Mat → Mat × (NpVal × NpVal))
    (gsmooth : (ℕ → ℕ → ℝ) → ℚ → ℕ → ℕ → ℝ)
    (hd : Mat) (tl : List Mat) (ref : Mat) (fsr : ℚ)
    (centroidThreshold : ℚ) (buffFas : ℕ) (cf sk : ℚ) (uo : Bool)
    (stacking : String)
    (hsh : ref.h = hd.h ∧ ref.w = hd.w) (hf0 : 0 < fsr) (hf1 : fsr < 1) :
    ∃ kept : List ℕ,
      kept.length = (Int.ceil (fsr * (hd :: tl).length)).toNat ∧
      kept.Nodup ∧
      (∀ i ∈ kept, i < (hd :: tl).length) ∧
      (∀ j < (hd :: tl).length, j ∉ kept → ∀ i ∈ kept,
        matMax ((hd :: tl).getD j mat0) ≤ matMax ((hd :: tl).getD i mat0)) ∧
      (stacking = "average" →
        luckyImaging xcorrFun gaussFun gsmooth "peak pixel" "serial" (hd :: tl)
          (some ref) fsr none none centroidThreshold buffFas cf sk uo stacking =
        .ok ((avgStack ref
              (kept.map (fun i => (ppFrame (npArgmax ref) ((hd :: tl).getD i mat0)).1))
              (((Int.ceil (fsr * (hd :: tl).length)).toNat : ℕ) : ℚ)).toR,
          (hd :: tl).map (fun im => (ppFrame (npArgmax ref) im).2.1))) ∧
      (stacking = "median combine" →
        luckyImaging xcorrFun gaussFun gsmooth "peak pixel" "serial" (hd :: tl)
          (some ref) fsr none none centroidThreshold buffFas cf sk uo stacking =
        .ok ((medStack ref
              (kept.map (fun i => (ppFrame (npArgmax ref) ((hd :: tl).getD i mat0)).1))).toR,
          (hd :: tl).map (fun im => (ppFrame (npArgmax ref) im).2.1))) := by
  have hN1 : 0 < (hd :: tl).length := by simp
  have hkle : (Int.ceil (fsr * (hd :: tl).length)).toNat ≤ (hd :: tl).length := by
    have hq : fsr * ((hd :: tl).length : ℚ) ≤ ((hd :: tl).length : ℚ) := by
      have hc : (0 : ℚ) ≤ ((hd :: tl).length : ℚ) := by positivity
      nlinarith
    have := Int.ceil_le.mpr (le_trans hq (by exact_mod_cast le_refl _))
    omega
  -- the pipeline reduces to postStack on the mapped per-frame results
  have hstep : ∀ st : String,
      luckyImaging xcorrFun gaussFun gsmooth "peak pixel" "serial" (hd :: tl)
        (some ref) fsr none none centroidThreshold buffFas cf sk uo st =
      postStack gsmooth "peak pixel" st ref (hd :: tl).length fsr buffFas cf sk uo
        ((hd :: tl).map (ppFrame (npArgmax ref))) := by
    intro st
    unfold luckyImaging
    rw [liErrorCheck_some hd tl ref hsh]
    show Except.bind
        (serialRun (fun im => .ok (ppFrame (npArgmax ref) im)) (hd :: tl)
          (hd :: tl).length)
        (fun results => postStack gsmooth "peak pixel" st ref (hd :: tl).length
          fsr buffFas cf sk uo results) = _
    rw [serialRun_eq_parallelRun,
      parallelRun_ok (fun im => .ok (ppFrame (npArgmax ref) im))
        (ppFrame (npArgmax ref)) (fun _ => rfl) (hd :: tl)]
    rfl
  have hpp : ∀ (st : String) (results : List PRes),
      postStack gsmooth "peak pixel" st ref (hd :: tl).length fsr buffFas cf sk
        uo results =
      (if st = "median combine" then
        .ok ((medStack ref ((topkIdxDesc results.length
              (Int.ceil (fsr * (hd :: tl).length)).toNat
              (fun i => ((results.getD i (mat0, (NpVal.num 0, NpVal.num 0),
                none)).2.2).getD 0)).map
            (fun i => (results.map (fun r => r.1)).getD i mat0))).toR,
          results.map (fun r => r.2.1))
      else if st = "average" then
        .ok ((avgStack ref ((topkIdxDesc results.length
              (Int.ceil (fsr * (hd :: tl).length)).toNat
              (fun i => ((results.getD i (mat0, (NpVal.num 0, NpVal.num 0),
                none)).2.2).getD 0)).map
            (fun i => (results.map (fun r => r.1)).getD i mat0))
            (((Int.ceil (fsr * (hd :: tl).length)).toNat : ℕ) : ℚ)).toR,
          results.map (fun r => r.2.1))
      else .error .nameError) := by
    intro st results
    unfold postStack
    split
    · rfl
    · next hcond => exact absurd ⟨rfl, hf1⟩ hcond
  have hres : ((hd :: tl).map (ppFrame (npArgmax ref))).length = (hd :: tl).length :=
    List.length_map _ _
  have hkey : ∀ i, i < (hd :: tl).length →
      ((((hd :: tl).map (ppFrame (npArgmax ref))).getD i
        (mat0, (NpVal.num 0, NpVal.num 0), none)).2.2).getD 0 =
      matMax ((hd :: tl).getD i mat0) := by
    intro i hi
    rw [getD_map (hd :: tl) (ppFrame (npArgmax ref)) _ mat0 i hi]
    rfl
  have hretained : ∀ kept2 : List ℕ, (∀ i ∈ kept2, i < (hd :: tl).length) →
      kept2.map (fun i =>
        (((hd :: tl).map (ppFrame (npArgmax ref))).map (fun r => r.1)).getD i mat0) =
      kept2.map (fun i => (ppFrame (npArgmax ref) ((hd :: tl).getD i mat0)).1) := by
    intro kept2 hmem
    refine List.map_congr_left ?_
    intro i hi
    have hilt : i < (hd :: tl).length := hmem i hi
    have hilt2 : i < ((hd :: tl).map (ppFrame (npArgmax ref))).length := by
      rw [hres]; exact hilt
    rw [getD_map _ (fun r => r.1) mat0 (mat0, (NpVal.num 0, NpVal.num 0), none)
      i hilt2]
    rw [getD_map (hd :: tl) (ppFrame (npArgmax ref))
      (mat0, (NpVal.num 0, NpVal.num 0), none) mat0 i hilt]
  have hshifts : ((hd :: tl).map (ppFrame (npArgmax ref))).map (fun r => r.2.1) =
      (hd :: tl).map (fun im => (ppFrame (npArgmax ref) im).2.1) := by
    rw [List.map_map]
    rfl
  refine ⟨topkIdxDesc ((hd :: tl).map (ppFrame (npArgmax ref))).length
      (Int.ceil (fsr * (hd :: tl).length)).toNat
      (fun i => ((((hd :: tl).map (ppFrame (npArgmax ref))).getD i
        (mat0, (NpVal.num 0, NpVal.num 0), none)).2.2).getD 0),
    ?_, ?_, ?_, ?_, ?_, ?_⟩
  · exact topkIdxDesc_length _ _ _ (by rw [hres]; exact hkle)
  · exact topkIdxDesc_nodup _ _ _
  · intro i hi
    have := topkIdxDesc_mem _ _ _ i hi
    rw [hres] at this
    exact this
  · intro j hj hjn i hi
    have hdom := topkIdxDesc_dominates _ (Int.ceil (fsr * (hd :: tl).length)).toNat
      _ j (by rw [hres]; exact hj) hjn i hi
    have hiN : i < (hd :: tl).length := by
      have := topkIdxDesc_mem _ _ _ i hi
      rw [hres] at this
      exact this
    rw [hkey j hj, hkey i hiN] at hdom
    exact hdom
  · intro hst
    subst hst
    rw [hstep "average", hpp "average" ((hd :: tl).map (ppFrame (npArgmax ref)))]
    rw [if_neg (by decide : ¬ ("average" : String) = "median combine"),
      if_pos (rfl : ("average" : String) = "average")]
    rw [hretained _ (fun i hi => by
      have := topkIdxDesc_mem _ _ _ i hi
      rw [hres] at this
      exact this)]
    rw [hshifts]
  · intro hst
    subst hst
    rw [hstep "median combine",
      hpp "median combine" ((hd :: tl).map (ppFrame (npArgmax ref)))]
    rw [if_pos (rfl : ("median combine" : String) = "median combine")]
    rw [hretained _ (fun i hi => by
      have := topkIdxDesc_mem _ _ _ i hi
      rw [hres] at this
      exact this)]
    rw [hshifts]

/-- Witness for C4 at a concrete input. -/
theorem peakPixel_selection_spec_witness :
    ((matC10.h = matC10.h ∧ matC10.w = matC10.w) ∧ (0 : ℚ) < 1/2 ∧ (1/2 : ℚ) < 1) ∧
    ∃ kept : List ℕ,
      kept.length = (Int.ceil ((1/2 : ℚ) * (matC10 :: [matC10]).length)).toNat ∧
      kept.Nodup := by
  have h := peakPixel_selection_spec (fun _ im => (im, (NpVal.num 0, NpVal.num 0)))
    (fun _ im => (im, (NpVal.num 0, NpVal.num 0))) (fun a _ => a)
    matC10 [matC10] matC10 (1/2) (1/4) 0 1 0 true "average" ⟨rfl, rfl⟩
    (by norm_num) (by norm_num)
  obtain ⟨kept, h1, h2, _⟩ := h
  exact ⟨⟨⟨rfl, rfl⟩, by norm_num, by norm_num⟩, kept, h1, h2⟩

/-! ### C1: the Fourier-amplitude-selection rule -/

theorem npRound_le_of_le (q : ℚ) (n : ℕ) (h : q ≤ n) : npRound q ≤ n := by
  have hf : ⌊q⌋ ≤ (n : ℤ) := by
    have := Int.floor_le_floor h
    rwa [Int.floor_natCast] at this
  have hf1 : ¬ (q - ⌊q⌋ < 1/2) → ⌊q⌋ + 1 ≤ (n : ℤ) := by
    intro hh
    have h2 : (⌊q⌋ : ℚ) + 1/2 ≤ q := by
      have := not_lt.mp hh
      linarith
    have h3 : (⌊q⌋ : ℚ) < (n : ℚ) := by linarith
    have h4 : ⌊q⌋ < (n : ℤ) := by exact_mod_cast h3
    omega
  show (if q - (⌊q⌋ : ℚ) < 1/2 then ⌊q⌋
    else if 1/2 < q - (⌊q⌋ : ℚ) then ⌊q⌋ + 1
    else if ⌊q⌋ % 2 = 0 then ⌊q⌋ else ⌊q⌋ + 1) ≤ (n : ℤ)
  split
  · exact hf
  · next hc =>
    split
    · exact hf1 hc
    · split
      · exact hf
      · exact hf1 hc

theorem fasK_le (fsr : ℚ) (n : ℕ) (h1 : 0 < n) (hfsr : fsr ≤ 1) :
    fasK fsr n ≤ n := by
  have hq : fsr * (n : ℚ) ≤ (n : ℚ) := by
    have hc : (0 : ℚ) ≤ (n : ℚ) := by positivity
    nlinarith
  have hr : npRound (fsr * n) ≤ (n : ℤ) := npRound_le_of_le _ n hq
  unfold fasK
  omega

/-- C1: in the FAS combination (with the default `sigma_kernel = 0` so the
selection key is the raw Fourier amplitude), at every frequency coordinate
of the low-frequency disc — radius from the DC origin of the fftshifted
plane, the grid centre `(h/2, w/2)`, strictly below
`round(cutoff_freq_frac · min(h, w))` — exactly the
`k = max(1, round(fsr · N))` frames with the largest Fourier amplitude at
that coordinate are selected: the accumulated `fft_sum` there is the sum
of the selected frames' complex values over a `k`-element index set that
dominates every unselected frame's amplitude; and the returned image is
the magnitude of the inverse transform of the un-shifted `fft_sum / k`. -/
theorem fas_selection_spec (gsmooth : (ℕ → ℕ → ℝ) → ℚ → ℕ → ℕ → ℝ)
    (h w buff : ℕ) (imagesShifted : List Mat) (n : ℕ)
    (fsr cutoffFreqFrac : ℚ) (useOutside : Bool)
    (hn : 2 ≤ n) (hlen : imagesShifted.length = n)
    (hfsr0 : 0 < fsr) (hfsr1 : fsr ≤ 1) :
    (fasCombine gsmooth h w imagesShifted n fsr buff cutoffFreqFrac 0 useOutside =
      ⟨h, w, fun x y => Complex.abs (idft2 h w (fftshift2 h w (fun u v =>
        fasSum gsmooth h w buff imagesShifted n fsr cutoffFreqFrac 0 useOutside u v /
        (fasK fsr n : ℂ))) x y)⟩) ∧
    ∀ r c, inDisc h w (fasCutoff cutoffFreqFrac h w) r c →
      ∃ sel : Finset ℕ,
        sel.card = fasK fsr n ∧
        (∀ i ∈ sel, i < n) ∧
        (∀ j < n, j ∉ sel → ∀ i ∈ sel,
          Complex.abs (fasF h w buff imagesShifted j r c) ≤
          Complex.abs (fasF h w buff imagesShifted i r c)) ∧
        fasSum gsmooth h w buff imagesShifted n fsr cutoffFreqFrac 0 useOutside r c =
          ∑ i ∈ sel, fasF h w buff imagesShifted i r c := by
  refine ⟨rfl, ?_⟩
  intro r c hin
  have hamp : ∀ i, fasAmp gsmooth 0 h w buff imagesShifted i =
      fun r2 c2 => Complex.abs (fasF h w buff imagesShifted i r2 c2) := by
    intro i
    unfold fasAmp
    simp
  have hk : fasK fsr n ≤ imagesShifted.length := by
    rw [hlen]
    exact fasK_le fsr n (by omega) hfsr1
  refine ⟨(topkIdx imagesShifted.length (fasK fsr n)
      (fun i => fasAmp gsmooth 0 h w buff imagesShifted i r c)).toFinset,
    ?_, ?_, ?_, ?_⟩
  · rw [List.toFinset_card_of_nodup (topkIdx_nodup _ _ _)]
    exact topkIdx_length _ _ _ hk
  · intro i hi
    have := topkIdx_mem _ _ _ i (List.mem_toFinset.mp hi)
    rw [hlen] at this
    exact this
  · intro j hj hjn i hi
    have hdom := topkIdx_dominates imagesShifted.length (fasK fsr n)
      (fun i => fasAmp gsmooth 0 h w buff imagesShifted i r c) j
      (by rw [hlen]; exact hj) (fun hc => hjn (List.mem_toFinset.mpr hc)) i
      (List.mem_toFinset.mp hi)
    simpa [fasAmp] using hdom
  · unfold fasSum
    rw [if_neg (fun hc => hc.2 hin), if_pos hin, zero_add]
    exact (List.sum_toFinset _ (topkIdx_nodup _ _ _)).symm

/-- Witness for C1 at a concrete input. -/
theorem fas_selection_spec_witness :
    (2 ≤ 2 ∧ ([matC10, matC10] : List Mat).length = 2 ∧
      (0 : ℚ) < 1 ∧ (1 : ℚ) ≤ 1) ∧
    fasCombine (fun a _ => a) 3 3 [matC10, matC10] 2 1 0 1 0 true =
      ⟨3, 3, fun x y => Complex.abs (idft2 3 3 (fftshift2 3 3 (fun u v =>
        fasSum (fun a _ => a) 3 3 0 [matC10, matC10] 2 1 1 0 true u v /
        (fasK 1 2 : ℂ))) x y)⟩ :=
  ⟨⟨by decide, rfl, by norm_num, by norm_num⟩,
    (fas_selection_spec (fun a _ => a) 3 3 0 [matC10, matC10] 2 1 1 true
      (by decide) rfl (by norm_num) (by norm_num)).1⟩

end LiSim
